import Mathlib

/-!
Shallow embedding of `ttimer` (src/ttimer/timer.py): a stack-based timing
engine with a path-keyed aggregation tree.

Modelling decisions:
* Wall/CPU durations are exact integer clock ticks (`ℤ`); the clock readings
  are abstracted by passing each stop's elapsed deltas as parameters to `_pop`
  (in the source, `StopWatch.stop` computes them from monotonic clocks; the
  claims under study involve only addition, subtraction and order on
  durations, for which integer ticks are a faithful exact model).
* The Python `dict` `_nodes` (insertion ordered, unique keys) is an
  association list `List (CallPath × Node)`; insertion appends, lookup takes
  the first match.
* `Node.parent` in the source holds an object reference to the parent `Node`.
  Map entries are assigned exactly once (a key is inserted only when absent
  and never re-bound), so the reference is, observably, the entry stored at
  the parent's key; we model it by that key (`Option CallPath`).
* Fallible operations return `Except` (`assert`/`KeyError` in the source
  raise before any mutation, so an error result models "state unchanged").
-/

namespace TTimer

abbrev CallPath := List String

/-- `StopWatch` as a value: the start timestamps are abstracted away; the
elapsed fields are 0 at creation and set when the watch is stopped. -/
structure StopWatch where
  name : String
  elapsed_time : ℤ
  elapsed_cpu_time : ℤ
deriving DecidableEq

/-- `Record` dataclass of the source: per-path statistics. -/
structure Record where
  name : String
  count : Nat := 0
  time : ℤ := 0
  own_time : ℤ := 0
  cpu_time : ℤ := 0
  own_cpu_time : ℤ := 0
deriving DecidableEq

/-- `Record.on_stop`: fold a stopped watch's deltas into the record. -/
def Record.on_stop (r : Record) (w : StopWatch) : Record :=
  { r with
      time := r.time + w.elapsed_time
      own_time := r.own_time + w.elapsed_time
      cpu_time := r.cpu_time + w.elapsed_cpu_time
      own_cpu_time := r.own_cpu_time + w.elapsed_cpu_time
      count := r.count + 1 }

/-- `Record.on_stop_child`: debit a child's deltas from the own-time fields. -/
def Record.on_stop_child (r : Record) (w : StopWatch) : Record :=
  { r with
      own_time := r.own_time - w.elapsed_time
      own_cpu_time := r.own_cpu_time - w.elapsed_cpu_time }

/-- `Record.merge` (pure version of the destructive merge): sums the five
statistics, keeps the receiver's name. -/
def Record.merge (r other : Record) : Record :=
  { r with
      time := r.time + other.time
      own_time := r.own_time + other.own_time
      cpu_time := r.cpu_time + other.cpu_time
      own_cpu_time := r.own_cpu_time + other.own_cpu_time
      count := r.count + other.count }

/-- The statistics tuple of a record (its identity-free content). -/
def statsOf (r : Record) : Nat × ℤ × ℤ × ℤ × ℤ :=
  (r.count, r.time, r.own_time, r.cpu_time, r.own_cpu_time)

/-- `Node`: a tree entry; `parent` models the source's object reference by
the parent's map key (see the module comment). -/
structure Node where
  stack : CallPath
  record : Record
  parent : Option CallPath
deriving DecidableEq

/-- Lookup in the `_nodes` association list (Python `dict.get` / `[]`). -/
def lookupNode : List (CallPath × Node) → CallPath → Option Node
  | [], _ => none
  | p :: rest, k => if p.1 = k then some p.2 else lookupNode rest k

/-- Python `key in dict`. -/
def containsKey (ns : List (CallPath × Node)) (k : CallPath) : Bool :=
  (lookupNode ns k).isSome

/-- In-place update of the entry (if any) stored at `k` (Python mutates the
`Node` object held in the dict). -/
def updateNode (ns : List (CallPath × Node)) (k : CallPath) (f : Node → Node) :
    List (CallPath × Node) :=
  ns.map (fun q => if q.1 = k then (q.1, f q.2) else q)

/-- The `Timer` state: the active watch stack and the path-keyed node map. -/
structure Timer where
  watches : List StopWatch
  nodes : List (CallPath × Node)
deriving DecidableEq

def Timer.empty : Timer := ⟨[], []⟩

/-- `Timer._stack`: the call path implied by the active watch stack. -/
def Timer.stackPath (t : Timer) : CallPath :=
  t.watches.map (fun w => w.name)

/-- `Timer._push(name)`: read the would-be parent at the current path, push a
fresh watch, and if the new full path has no node yet, append one whose
record carries the new path's last element as name. -/
def Timer.push (t : Timer) (name : String) : Timer :=
  let parent := lookupNode t.nodes t.stackPath
  let watches := t.watches ++ [⟨name, 0, 0⟩]
  let newStack := watches.map (fun w => w.name)
  if containsKey t.nodes newStack then
    { t with watches := watches }
  else
    { watches := watches
      nodes := t.nodes ++
        [(newStack,
          ⟨newStack, { name := newStack.getLastD "" },
           parent.map (fun _ => t.stackPath)⟩)] }

inductive PopError where
  | stackUnderflow
  | keyError
deriving DecidableEq

/-- `Timer._pop()`: stop the top watch (its elapsed deltas are the two `ℤ`
arguments), fold them into the record at the current full path, debit the
parent's own-time fields, then drop the watch. An empty stack trips the
source's `assert self._watches` (`stackUnderflow`); a missing node for the
full path would be a Python `KeyError` (`keyError`); both raise before any
state is mutated. -/
def Timer.pop (t : Timer) (elapsed_time elapsed_cpu_time : ℤ) :
    Except PopError Timer :=
  match t.watches.getLast? with
  | none => .error .stackUnderflow
  | some w0 =>
    let w : StopWatch :=
      { w0 with elapsed_time := elapsed_time, elapsed_cpu_time := elapsed_cpu_time }
    let path := t.stackPath
    match lookupNode t.nodes path with
    | none => .error .keyError
    | some node =>
      let nodes1 := updateNode t.nodes path (fun n => { n with record := n.record.on_stop w })
      let nodes2 :=
        match node.parent with
        | some pk => updateNode nodes1 pk (fun n => { n with record := n.record.on_stop_child w })
        | none => nodes1
      .ok { watches := t.watches.dropLast, nodes := nodes2 }

inductive LookupError where
  | keyError
deriving DecidableEq

instance {ε α : Type} [DecidableEq ε] [DecidableEq α] : DecidableEq (Except ε α)
  | .error a, .error b =>
    if h : a = b then .isTrue (by rw [h]) else .isFalse (fun hc => by cases hc; exact h rfl)
  | .error _, .ok _ => .isFalse (fun hc => by cases hc)
  | .ok _, .error _ => .isFalse (fun hc => by cases hc)
  | .ok a, .ok b =>
    if h : a = b then .isTrue (by rw [h]) else .isFalse (fun hc => by cases hc; exact h rfl)

/-- `Timer.__getitem__(item)`: collect the records of all nodes whose key ends
in `item`; raise `KeyError` when none; otherwise fold the destructive
`record.merge` over a fresh copy of the first candidate's record. -/
def Timer.getitem (t : Timer) (item : String) : Except LookupError Record :=
  match (t.nodes.filter (fun p => p.1.getLast? == some item)).map (fun p => p.2.record) with
  | [] => .error .keyError
  | c :: rest => .ok (rest.foldl Record.merge c)

/-- First-occurrence deduplication, the order of
`\x7bk[-1]: None for k in self._nodes.keys()\x7d.keys()` in the source. -/
def firstOccAux : List String → List String → List String
  | _, [] => []
  | seen, a :: l =>
    if a ∈ seen then firstOccAux seen l else a :: firstOccAux (a :: seen) l

def firstOcc (l : List String) : List String := firstOccAux [] l

/-- `Timer.records`: one merged record per distinct leaf name, in first
occurrence order (this is the flat projection used by `to_dict(flat=True)`).
Keys are never empty in reachable states, so `filterMap getLast?` enumerates
exactly the `k[-1]` of the source, and every `getitem` succeeds. -/
def Timer.records (t : Timer) : List Record :=
  (firstOcc (t.nodes.filterMap (fun p => p.1.getLast?))).filterMap
    (fun k => (t.getitem k).toOption)

/-- State-passing translation of `Timer.__getitem__`: the method's only
mutation targets the local `record` (a `copy.copy` of the first candidate's
record, folded over by the destructive merge), never a field of `self` or an
object held in `self._nodes`; the state component is therefore the input
state, statement by statement. -/
def Timer.getitemRun (t : Timer) (item : String) :
    Timer × Except LookupError Record :=
  match (t.nodes.filter (fun p => p.1.getLast? == some item)).map (fun p => p.2) with
  | [] => (t, .error .keyError)
  | c :: rest =>
    let record := c.record
    let record := rest.foldl (fun acc n => acc.merge n.record) record
    (t, .ok record)

/-- Modelled from the spec: `copy()` (absent from the sources under
verification) returns a deep, independent snapshot of `records` and
`active_stack`. In this pure-value embedding a `Timer` value is itself such
a snapshot, so `copy` returns the value unchanged; independence from later
mutation of the original is value semantics. -/
def Timer.copy (t : Timer) : Timer := t

/-- Modelled from the spec: `frozen()` (absent from the sources under
verification) force-pops every still-open region, top of stack first, as if
`pop()` were called for each; the still-running regions' elapsed-so-far
deltas are supplied as the list `ds`, one `(wall, cpu)` pair per open
region. -/
def Timer.frozen : Timer → List (ℤ × ℤ) → Timer
  | t, [] => t
  | t, d :: ds =>
    match t.pop d.1 d.2 with
    | .ok t' => Timer.frozen t' ds
    | .error _ => t

/-- Sum of `count` over all stored records (observer used to state that a
pop folds exactly one invocation in). -/
def sumCount (t : Timer) : Nat :=
  (t.nodes.map (fun p => p.2.record.count)).sum

/-- Sum of `time` over all stored records. -/
def sumTime (t : Timer) : ℤ :=
  (t.nodes.map (fun p => p.2.record.time)).sum

/-- Sum of `cpu_time` over all stored records. -/
def sumCpuTime (t : Timer) : ℤ :=
  (t.nodes.map (fun p => p.2.record.cpu_time)).sum

/-- Total wrapper around `Timer.pop`, used to build concrete example states
(the error branch is never taken in those examples). -/
def popD (t : Timer) (e ec : ℤ) : Timer :=
  match t.pop e ec with
  | .ok t' => t'
  | .error _ => t

/-- Reachable timer states: the empty timer, closed under `push` and under
successful `pop` with non-negative elapsed deltas. -/
inductive Reach : Timer → Prop where
  | init : Reach Timer.empty
  | push {t : Timer} (name : String) : Reach t → Reach (t.push name)
  | pop {t t' : Timer} (e ec : ℤ) : Reach t → 0 ≤ e → 0 ≤ ec →
      t.pop e ec = .ok t' → Reach t'

/-- The node update applied by `pop` to the node at the full path
(`Record.on_stop` spelled out; the watch name is irrelevant to it). -/
def stopUpd (e ec : ℤ) (n : Node) : Node :=
  { n with record :=
    { n.record with
        count := n.record.count + 1
        time := n.record.time + e
        own_time := n.record.own_time + e
        cpu_time := n.record.cpu_time + ec
        own_cpu_time := n.record.own_cpu_time + ec } }

/-- The node update applied by `pop` to the parent node
(`Record.on_stop_child` spelled out). -/
def childUpd (e ec : ℤ) (n : Node) : Node :=
  { n with record :=
    { n.record with
        own_time := n.record.own_time - e
        own_cpu_time := n.record.own_cpu_time - ec } }

/-- Structural well-formedness of one stored entry: non-empty key, the node
remembers its key, the record is named by the key's last element, and the
parent back-reference (when set) is the key with the last element removed and
is present in the map. -/
def goodEntry (ns : List (CallPath × Node)) (p : CallPath × Node) : Prop :=
  p.1 ≠ [] ∧ p.2.stack = p.1 ∧ p.2.record.name = p.1.getLastD "" ∧
  ∀ pk, p.2.parent = some pk → pk = p.1.dropLast ∧ (lookupNode ns pk).isSome

/-- `k` has no recorded child in the map: no stored key extends it by one
element. -/
def childless (ns : List (CallPath × Node)) (k : CallPath) : Prop :=
  ∀ q ∈ ns, q.1.dropLast ≠ k

/-- Statistics invariant of one stored entry: totals are non-negative, own
times never exceed totals, and an entry with no recorded children has own
time equal to total time (on both clocks). -/
def statsOk (ns : List (CallPath × Node)) (p : CallPath × Node) : Prop :=
  0 ≤ p.2.record.time ∧ 0 ≤ p.2.record.cpu_time ∧
  p.2.record.own_time ≤ p.2.record.time ∧
  p.2.record.own_cpu_time ≤ p.2.record.cpu_time ∧
  (childless ns p.1 →
    p.2.record.own_time = p.2.record.time ∧
    p.2.record.own_cpu_time = p.2.record.cpu_time)

/-- Every non-empty prefix of the active stack has a node in the map (each
prefix was the full path of some earlier `push`). -/
def prefixesPresent (t : Timer) : Prop :=
  ∀ n : Nat, n ≠ 0 → n ≤ t.watches.length →
    (lookupNode t.nodes ((t.watches.take n).map (fun w => w.name))).isSome

/-- The state invariant maintained by `push` and successful `pop`. -/
def Inv (t : Timer) : Prop :=
  (∀ p ∈ t.nodes, goodEntry t.nodes p ∧ statsOk t.nodes p) ∧
  (t.nodes.map Prod.fst).Nodup ∧
  prefixesPresent t

/-- Concrete run for the leaf-name claims: `push a; push b; pop(1,1);
pop(3,3); push b; pop(5,5)` — two distinct stored paths end in `b`. -/
def exAmbig : Timer :=
  popD ((popD (popD ((Timer.empty.push "a").push "b") 1 1) 3 3).push "b") 5 5

/-- Concrete run for the record-invariant claims: `push a; push b; pop(1,1)`
— the record at `["a"]` exists with `count = 0` and `own_time = -1`. -/
def exOpen : Timer :=
  popD ((Timer.empty.push "a").push "b") 1 1

/-! ### Association-list lemmas -/

theorem lookupNode_append (ns ms : List (CallPath × Node)) (k : CallPath) :
    lookupNode (ns ++ ms) k =
      match lookupNode ns k with
      | some n => some n
      | none => lookupNode ms k := by
  induction ns with
  | nil => simp [lookupNode]
  | cons p rest ih =>
    by_cases h : p.1 = k <;> simp [lookupNode, h, ih]

theorem lookupNode_mem {ns : List (CallPath × Node)} {k : CallPath} {n : Node}
    (h : lookupNode ns k = some n) : (k, n) ∈ ns := by
  induction ns with
  | nil => simp [lookupNode] at h
  | cons p rest ih =>
    rw [lookupNode] at h
    by_cases hp : p.1 = k
    · rw [if_pos hp] at h
      injection h with h2
      subst h2
      obtain ⟨a, b⟩ := p
      subst hp
      exact List.mem_cons_self _ _
    · rw [if_neg hp] at h
      exact List.mem_cons_of_mem _ (ih h)

theorem lookupNode_isSome_of_mem_keys {ns : List (CallPath × Node)} {k : CallPath}
    (h : k ∈ ns.map Prod.fst) : (lookupNode ns k).isSome := by
  induction ns with
  | nil => simp at h
  | cons p rest ih =>
    rw [lookupNode]
    by_cases hp : p.1 = k
    · simp [hp]
    · simp only [List.map_cons, List.mem_cons] at h
      rcases h with h | h
      · exact absurd h.symm hp
      · simpa [hp] using ih h

theorem mem_keys_of_lookupNode_isSome {ns : List (CallPath × Node)} {k : CallPath}
    (h : (lookupNode ns k).isSome) : k ∈ ns.map Prod.fst := by
  rcases Option.isSome_iff_exists.mp h with ⟨n, hn⟩
  exact List.mem_map.mpr ⟨(k, n), lookupNode_mem hn, rfl⟩

theorem keys_updateNode (ns : List (CallPath × Node)) (k : CallPath) (f : Node → Node) :
    (updateNode ns k f).map Prod.fst = ns.map Prod.fst := by
  unfold updateNode
  rw [List.map_map]
  refine List.map_congr_left ?_
  intro q _
  by_cases h : q.1 = k <;> simp [h]

theorem lookupNode_updateNode_self (ns : List (CallPath × Node)) (k : CallPath)
    (f : Node → Node) :
    lookupNode (updateNode ns k f) k = (lookupNode ns k).map f := by
  induction ns with
  | nil => rfl
  | cons p rest ih =>
    unfold updateNode at ih ⊢
    rw [List.map_cons]
    by_cases h : p.1 = k
    · rw [if_pos h, lookupNode, lookupNode, if_pos h, if_pos h]
      rfl
    · rw [if_neg h, lookupNode, lookupNode, if_neg h, if_neg h]
      exact ih

theorem lookupNode_updateNode_ne (ns : List (CallPath × Node)) {k k' : CallPath}
    (f : Node → Node) (h : k' ≠ k) :
    lookupNode (updateNode ns k f) k' = lookupNode ns k' := by
  induction ns with
  | nil => rfl
  | cons p rest ih =>
    unfold updateNode at ih ⊢
    rw [List.map_cons]
    by_cases hp : p.1 = k
    · have hne : p.1 ≠ k' := fun hc => h (hc ▸ hp)
      rw [if_pos hp, lookupNode, lookupNode, if_neg hne]
      have : (p.1, f p.2).1 ≠ k' := hne
      rw [if_neg this]
      exact ih
    · rw [if_neg hp, lookupNode, lookupNode]
      by_cases hp' : p.1 = k'
      · rw [if_pos hp', if_pos hp']
      · rw [if_neg hp', if_neg hp']
        exact ih

theorem lookupNode_updateNode_isSome (ns : List (CallPath × Node)) (k k' : CallPath)
    (f : Node → Node) :
    (lookupNode (updateNode ns k f) k').isSome = (lookupNode ns k').isSome := by
  by_cases h : k' = k
  · subst h; rw [lookupNode_updateNode_self]; cases lookupNode ns k' <;> rfl
  · rw [lookupNode_updateNode_ne ns f h]

theorem mem_updateNode {ns : List (CallPath × Node)} {k : CallPath} {f : Node → Node}
    {q : CallPath × Node} (h : q ∈ updateNode ns k f) :
    ∃ p ∈ ns, q = if p.1 = k then (p.1, f p.2) else p := by
  rcases List.mem_map.mp h with ⟨p, hp, he⟩
  exact ⟨p, hp, he.symm⟩

theorem childless_iff_keys (ns : List (CallPath × Node)) (k : CallPath) :
    childless ns k ↔ ∀ x ∈ ns.map Prod.fst, x.dropLast ≠ k := by
  unfold childless
  rw [List.forall_mem_map]

theorem childless_congr {ns ms : List (CallPath × Node)} (k : CallPath)
    (h : ns.map Prod.fst = ms.map Prod.fst) : childless ns k ↔ childless ms k := by
  rw [childless_iff_keys, childless_iff_keys, h]

/-! ### First-occurrence deduplication -/

theorem mem_firstOccAux (x : String) :
    ∀ (l seen : List String), x ∈ firstOccAux seen l ↔ x ∈ l ∧ x ∉ seen := by
  intro l
  induction l with
  | nil => intro seen; simp [firstOccAux]
  | cons a l ih =>
    intro seen
    by_cases ha : a ∈ seen
    · simp only [firstOccAux, if_pos ha, ih, List.mem_cons]
      constructor
      · rintro ⟨hx, hs⟩; exact ⟨Or.inr hx, hs⟩
      · rintro ⟨hx | hx, hs⟩
        · exact absurd (hx ▸ ha) hs
        · exact ⟨hx, hs⟩
    · simp only [firstOccAux, if_neg ha, List.mem_cons, ih]
      constructor
      · rintro (rfl | ⟨hx, hs⟩)
        · exact ⟨Or.inl rfl, ha⟩
        · exact ⟨Or.inr hx, fun hc => hs (Or.inr hc)⟩
      · rintro ⟨rfl | hx, hs⟩
        · exact Or.inl rfl
        · by_cases hxa : x = a
          · exact Or.inl hxa
          · exact Or.inr ⟨hx, by simp [hxa, hs]⟩

theorem nodup_firstOccAux : ∀ (l seen : List String), (firstOccAux seen l).Nodup := by
  intro l
  induction l with
  | nil => intro seen; simp [firstOccAux]
  | cons a l ih =>
    intro seen
    by_cases ha : a ∈ seen
    · simpa [firstOccAux, if_pos ha] using ih seen
    · rw [firstOccAux, if_neg ha]
      refine List.Nodup.cons ?_ (ih (a :: seen))
      intro hc
      exact ((mem_firstOccAux a l (a :: seen)).mp hc).2 (List.mem_cons_self a seen)

theorem mem_firstOcc (x : String) (l : List String) : x ∈ firstOcc l ↔ x ∈ l := by
  unfold firstOcc
  rw [mem_firstOccAux]
  simp

theorem nodup_firstOcc (l : List String) : (firstOcc l).Nodup :=
  nodup_firstOccAux l []

theorem updateNode_eq_of_not_mem {ns : List (CallPath × Node)} {k : CallPath}
    {f : Node → Node} (h : k ∉ ns.map Prod.fst) : updateNode ns k f = ns := by
  induction ns with
  | nil => rfl
  | cons p rest ih =>
    rw [List.map_cons] at h
    unfold updateNode
    rw [List.map_cons]
    have hp : p.1 ≠ k := fun hc => h (List.mem_cons.mpr (Or.inl hc.symm))
    rw [if_neg hp]
    congr 1
    exact ih (fun hc => h (List.mem_cons.mpr (Or.inr hc)))

theorem sum_map_updateNode {M : Type} [AddCommMonoid M] (F : CallPath × Node → M)
    {ns : List (CallPath × Node)} {k : CallPath} (f : Node → Node) {n : Node}
    (hnd : (ns.map Prod.fst).Nodup) (hl : lookupNode ns k = some n) :
    ((updateNode ns k f).map F).sum + F (k, n) = (ns.map F).sum + F (k, f n) := by
  induction ns with
  | nil => cases hl
  | cons p rest ih =>
    rw [lookupNode] at hl
    rw [List.map_cons] at hnd
    by_cases hp : p.1 = k
    · rw [if_pos hp] at hl
      injection hl with hl
      have hk : k ∉ rest.map Prod.fst := by
        rw [← hp]
        exact (List.nodup_cons.mp hnd).1
      unfold updateNode
      rw [List.map_cons, if_pos hp]
      have hrest : updateNode rest k f = rest := updateNode_eq_of_not_mem hk
      unfold updateNode at hrest
      rw [hrest]
      simp only [List.map_cons, List.sum_cons]
      have hpn : (p.1, f p.2) = (k, f n) := by rw [hp, hl]
      have hpe : (p : CallPath × Node) = (k, n) := by
        obtain ⟨a, b⟩ := p
        simp only at hp hl
        rw [hp, hl]
      rw [hpn, hpe]
      abel
    · rw [if_neg hp] at hl
      unfold updateNode
      rw [List.map_cons, if_neg hp]
      simp only [List.map_cons, List.sum_cons]
      have := ih (List.nodup_cons.mp hnd).2 hl
      unfold updateNode at this
      rw [add_assoc, this, add_assoc]

theorem map_updateNode_congr {M : Type} (F : CallPath × Node → M)
    (ns : List (CallPath × Node)) (k : CallPath) (f : Node → Node)
    (h : ∀ m : Node, F (k, f m) = F (k, m)) :
    (updateNode ns k f).map F = ns.map F := by
  unfold updateNode
  rw [List.map_map]
  refine List.map_congr_left ?_
  intro q _
  by_cases hq : q.1 = k
  · subst hq
    simp only [Function.comp_apply, if_pos rfl]
    exact h q.2
  · simp [hq]

/-! ### Characterization of `push` and `pop` -/

theorem push_watches (t : Timer) (name : String) :
    (t.push name).watches = t.watches ++ [⟨name, 0, 0⟩] := by
  simp only [Timer.push]
  split <;> rfl

theorem push_stackPath (t : Timer) (name : String) :
    (t.push name).stackPath = t.stackPath ++ [name] := by
  rw [Timer.stackPath, push_watches, List.map_append]
  rfl

theorem push_nodes (t : Timer) (name : String) :
    (t.push name).nodes =
      if (lookupNode t.nodes (t.stackPath ++ [name])).isSome then t.nodes
      else t.nodes ++ [(t.stackPath ++ [name],
        ⟨t.stackPath ++ [name], { name := name },
         (lookupNode t.nodes t.stackPath).map (fun _ => t.stackPath)⟩)] := by
  have hmap : (t.watches ++ [(⟨name, 0, 0⟩ : StopWatch)]).map (fun w => w.name)
      = t.stackPath ++ [name] := by
    rw [List.map_append]
    rfl
  simp only [Timer.push, containsKey, hmap, List.getLastD_concat]
  split <;> rfl

theorem pop_ok_char (t : Timer) (e ec : ℤ) {w0 : StopWatch} {node : Node}
    (hw : t.watches.getLast? = some w0)
    (hn : lookupNode t.nodes t.stackPath = some node) :
    t.pop e ec = .ok
      { watches := t.watches.dropLast
        nodes :=
          match node.parent with
          | some pk =>
            updateNode (updateNode t.nodes t.stackPath (stopUpd e ec)) pk (childUpd e ec)
          | none => updateNode t.nodes t.stackPath (stopUpd e ec) } := by
  simp only [Timer.pop, hw, hn]
  cases node.parent <;> rfl

theorem pop_ok_inv {t t' : Timer} {e ec : ℤ} (h : t.pop e ec = .ok t') :
    ∃ w0 node, t.watches.getLast? = some w0 ∧
      lookupNode t.nodes t.stackPath = some node ∧
      t' = { watches := t.watches.dropLast
             nodes :=
               match node.parent with
               | some pk =>
                 updateNode (updateNode t.nodes t.stackPath (stopUpd e ec)) pk (childUpd e ec)
               | none => updateNode t.nodes t.stackPath (stopUpd e ec) } := by
  cases hw : t.watches.getLast? with
  | none =>
    simp only [Timer.pop, hw] at h
    exact Except.noConfusion h
  | some w0 =>
    cases hn : lookupNode t.nodes t.stackPath with
    | none =>
      simp only [Timer.pop, hw, hn] at h
      exact Except.noConfusion h
    | some node =>
      simp only [Timer.pop, hw, hn] at h
      refine ⟨w0, node, rfl, rfl, ?_⟩
      cases hp : node.parent with
      | none =>
        rw [hp] at h
        simp only [Except.ok.injEq] at h
        exact h.symm
      | some pk =>
        rw [hp] at h
        simp only [Except.ok.injEq] at h
        exact h.symm

/-! ### Folding the destructive merge -/

theorem foldl_merge_fields (l : List Record) :
    ∀ c : Record,
    (l.foldl Record.merge c).name = c.name ∧
    (l.foldl Record.merge c).count = c.count + (l.map Record.count).sum ∧
    (l.foldl Record.merge c).time = c.time + (l.map Record.time).sum ∧
    (l.foldl Record.merge c).own_time = c.own_time + (l.map Record.own_time).sum ∧
    (l.foldl Record.merge c).cpu_time = c.cpu_time + (l.map Record.cpu_time).sum ∧
    (l.foldl Record.merge c).own_cpu_time
      = c.own_cpu_time + (l.map Record.own_cpu_time).sum := by
  induction l with
  | nil => intro c; simp
  | cons r l ih =>
    intro c
    obtain ⟨h1, h2, h3, h4, h5, h6⟩ := ih (c.merge r)
    rw [List.foldl_cons]
    refine ⟨?_, ?_, ?_, ?_, ?_, ?_⟩
    · rw [h1]; rfl
    · rw [h2]; simp [Record.merge, add_assoc]
    · rw [h3]; simp [Record.merge, add_assoc]
    · rw [h4]; simp [Record.merge, add_assoc]
    · rw [h5]; simp [Record.merge, add_assoc]
    · rw [h6]; simp [Record.merge, add_assoc]

theorem length_filterMap_of_isSome {α β : Type} (f : α → Option β) :
    ∀ l : List α, (∀ x ∈ l, (f x).isSome) → (l.filterMap f).length = l.length := by
  intro l
  induction l with
  | nil => simp
  | cons a l ih =>
    intro h
    have ha := h a (List.mem_cons_self a l)
    rcases Option.isSome_iff_exists.mp ha with ⟨b, hb⟩
    rw [List.filterMap_cons, hb]
    simp only [List.length_cons]
    rw [ih (fun x hx => h x (List.mem_cons_of_mem _ hx))]

theorem lookupNode_append_left {ns ms : List (CallPath × Node)} {k : CallPath}
    (h : (lookupNode ns k).isSome) : lookupNode (ns ++ ms) k = lookupNode ns k := by
  rw [lookupNode_append]
  cases hx : lookupNode ns k
  · rw [hx] at h; cases h
  · rfl

theorem lookupNode_append_right {ns ms : List (CallPath × Node)} {k : CallPath}
    (h : lookupNode ns k = none) : lookupNode (ns ++ ms) k = lookupNode ms k := by
  rw [lookupNode_append, h]

theorem goodEntry_of_same {ns ms : List (CallPath × Node)} {p q : CallPath × Node}
    (hk : p.1 = q.1) (hs : p.2.stack = q.2.stack)
    (hm : p.2.record.name = q.2.record.name) (hpar : p.2.parent = q.2.parent)
    (hsome : ∀ k, (lookupNode ns k).isSome → (lookupNode ms k).isSome)
    (hq : goodEntry ns q) : goodEntry ms p := by
  obtain ⟨h1, h2, h3, h4⟩ := hq
  refine ⟨hk ▸ h1, ?_, ?_, ?_⟩
  · rw [hs, hk]; exact h2
  · rw [hm, hk]; exact h3
  · intro pk hpk
    rw [hpar] at hpk
    obtain ⟨ha, hb⟩ := h4 pk hpk
    exact ⟨by rw [hk]; exact ha, hsome pk hb⟩

/-! ### The invariant is established and preserved -/

theorem inv_empty : Inv Timer.empty := by
  refine ⟨?_, ?_, ?_⟩
  · intro p hp; cases hp
  · simp [Timer.empty]
  · intro n hn hlen
    simp [Timer.empty] at hlen
    exact absurd hlen hn

theorem inv_push (t : Timer) (name : String) (h : Inv t) : Inv (t.push name) := by
  obtain ⟨hg, hnd, hpre⟩ := h
  unfold Inv prefixesPresent
  rw [push_nodes, push_watches]
  by_cases hc : (lookupNode t.nodes (t.stackPath ++ [name])).isSome
  · rw [if_pos hc]
    refine ⟨hg, hnd, ?_⟩
    intro n hn hlen
    rw [List.length_append, List.length_cons, List.length_nil] at hlen
    by_cases hn' : n ≤ t.watches.length
    · rw [List.take_append_of_le_length hn']
      exact hpre n hn hn'
    · have hEq : n = t.watches.length + 1 := by omega
      have : (t.watches ++ [(⟨name, 0, 0⟩ : StopWatch)]).take n
          = t.watches ++ [⟨name, 0, 0⟩] := by
        apply List.take_of_length_le
        rw [List.length_append, List.length_cons, List.length_nil]
        omega
      rw [this, List.map_append]
      exact hc
  · rw [if_neg hc]
    have hnone : lookupNode t.nodes (t.stackPath ++ [name]) = none :=
      Option.not_isSome_iff_eq_none.mp hc
    set entry : CallPath × Node :=
      (t.stackPath ++ [name],
        ⟨t.stackPath ++ [name], { name := name },
         (lookupNode t.nodes t.stackPath).map (fun _ => t.stackPath)⟩) with hentry
    refine ⟨?_, ?_, ?_⟩
    · intro p hp
      rcases List.mem_append.mp hp with hp | hp
      · obtain ⟨hge, hst⟩ := hg p hp
        constructor
        · refine goodEntry_of_same rfl rfl rfl rfl ?_ hge
          intro k hk
          rw [lookupNode_append_left hk]
          exact hk
        · obtain ⟨s1, s2, s3, s4, s5⟩ := hst
          refine ⟨s1, s2, s3, s4, ?_⟩
          intro hch
          exact s5 (fun q hq => hch q (List.mem_append_left _ hq))
      · rw [List.mem_singleton] at hp
        subst hp
        constructor
        · refine ⟨?_, rfl, ?_, ?_⟩
          · simp [hentry]
          · simp [hentry, List.getLastD_concat]
          · intro pk hpk
            simp only [hentry, Option.map_eq_some'] at hpk
            obtain ⟨m, hm, hpk⟩ := hpk
            subst hpk
            refine ⟨by rw [List.dropLast_concat], ?_⟩
            rw [lookupNode_append_left (by simp [hm])]
            simp [hm]
        · refine ⟨le_refl _, le_refl _, le_refl _, le_refl _, fun _ => ⟨rfl, rfl⟩⟩
    · rw [List.map_append]
      rw [List.nodup_append]
      refine ⟨hnd, List.nodup_singleton _, ?_⟩
      intro x hx hx'
      simp [hentry] at hx'
      rw [hx'] at hx
      exact hc (lookupNode_isSome_of_mem_keys hx)
    · intro n hn hlen
      rw [List.length_append, List.length_cons, List.length_nil] at hlen
      by_cases hn' : n ≤ t.watches.length
      · rw [List.take_append_of_le_length hn']
        exact (lookupNode_append_left (hpre n hn hn')) ▸ hpre n hn hn'
      · have htk : (t.watches ++ [(⟨name, 0, 0⟩ : StopWatch)]).take n
            = t.watches ++ [⟨name, 0, 0⟩] := by
          apply List.take_of_length_le
          rw [List.length_append, List.length_cons, List.length_nil]
          omega
        have hpath : (t.watches ++ [(⟨name, 0, 0⟩ : StopWatch)]).map (fun w => w.name)
            = t.stackPath ++ [name] := by
          rw [List.map_append]
          rfl
        rw [htk, hpath, lookupNode_append_right hnone]
        simp [hentry, lookupNode]

theorem statsOk_stopUpd {ns ms : List (CallPath × Node)} {q : CallPath × Node}
    {e ec : ℤ} (he : 0 ≤ e) (hec : 0 ≤ ec)
    (hkeys : ms.map Prod.fst = ns.map Prod.fst)
    (hst : statsOk ns q) : statsOk ms (q.1, stopUpd e ec q.2) := by
  obtain ⟨s1, s2, s3, s4, s5⟩ := hst
  refine ⟨?_, ?_, ?_, ?_, ?_⟩
  · exact add_nonneg s1 he
  · exact add_nonneg s2 hec
  · exact add_le_add_right s3 e
  · exact add_le_add_right s4 ec
  · intro hch
    obtain ⟨e1, e2⟩ := s5 ((childless_congr q.1 hkeys.symm).mpr hch)
    exact ⟨by simp only [stopUpd]; rw [e1], by simp only [stopUpd]; rw [e2]⟩

theorem statsOk_unchanged {ns ms : List (CallPath × Node)} {q : CallPath × Node}
    (hkeys : ms.map Prod.fst = ns.map Prod.fst)
    (hst : statsOk ns q) : statsOk ms q := by
  obtain ⟨s1, s2, s3, s4, s5⟩ := hst
  exact ⟨s1, s2, s3, s4, fun hch => s5 ((childless_congr q.1 hkeys.symm).mpr hch)⟩

theorem inv_pop {t t' : Timer} {e ec : ℤ} (hI : Inv t) (he : 0 ≤ e) (hec : 0 ≤ ec)
    (h : t.pop e ec = .ok t') : Inv t' := by
  obtain ⟨hg, hnd, hpre⟩ := hI
  obtain ⟨w0, node, hw, hn, ht'⟩ := pop_ok_inv h
  have hmem : (t.stackPath, node) ∈ t.nodes := lookupNode_mem hn
  have hgoodS := (hg _ hmem).1
  have hSne : t.stackPath ≠ [] := hgoodS.1
  have hSkeys : t.stackPath ∈ t.nodes.map Prod.fst :=
    List.mem_map.mpr ⟨(t.stackPath, node), hmem, rfl⟩
  subst ht'
  cases hp : node.parent with
  | none =>
    have hkeys : (updateNode t.nodes t.stackPath (stopUpd e ec)).map Prod.fst
        = t.nodes.map Prod.fst := keys_updateNode _ _ _
    have hsome : ∀ k,
        (lookupNode (updateNode t.nodes t.stackPath (stopUpd e ec)) k).isSome
          = (lookupNode t.nodes k).isSome :=
      fun k => lookupNode_updateNode_isSome _ _ _ _
    refine ⟨?_, ?_, ?_⟩
    · intro p' hp'
      obtain ⟨q, hq, hq'⟩ := mem_updateNode hp'
      by_cases hqS : q.1 = t.stackPath
      · rw [if_pos hqS] at hq'
        subst hq'
        refine ⟨?_, ?_⟩
        · refine goodEntry_of_same rfl rfl rfl rfl (fun k hk => by rw [hsome]; exact hk)
            (hg q hq).1
        · exact statsOk_stopUpd he hec hkeys (hg q hq).2
      · rw [if_neg hqS] at hq'
        subst hq'
        exact ⟨goodEntry_of_same rfl rfl rfl rfl
            (fun k hk => by rw [hsome]; exact hk) (hg _ hq).1,
          statsOk_unchanged hkeys (hg _ hq).2⟩
    · show ((updateNode t.nodes t.stackPath (stopUpd e ec)).map Prod.fst).Nodup
      rw [hkeys]
      exact hnd
    · intro n hn' hlen
      show (lookupNode (updateNode t.nodes t.stackPath (stopUpd e ec))
        ((t.watches.dropLast.take n).map (fun w => w.name))).isSome
      rw [hsome]
      have hlen' : n ≤ t.watches.length - 1 := by
        simpa [List.length_dropLast] using hlen
      have htake : t.watches.dropLast.take n = t.watches.take n := by
        rw [List.dropLast_eq_take, List.take_take]
        congr 1
        omega
      rw [htake]
      exact hpre n hn' (by omega)
  | some pk =>
    obtain ⟨hpkdrop, _⟩ := hgoodS.2.2.2 pk hp
    have hpkne : pk ≠ t.stackPath := by
      intro hcc
      have hlen := List.length_dropLast t.stackPath
      rw [← hpkdrop, hcc] at hlen
      have : 0 < t.stackPath.length := List.length_pos.mpr hSne
      omega
    have hkeys : (updateNode (updateNode t.nodes t.stackPath (stopUpd e ec)) pk
          (childUpd e ec)).map Prod.fst = t.nodes.map Prod.fst := by
      rw [keys_updateNode, keys_updateNode]
    have hsome : ∀ k,
        (lookupNode (updateNode (updateNode t.nodes t.stackPath (stopUpd e ec)) pk
          (childUpd e ec)) k).isSome = (lookupNode t.nodes k).isSome := by
      intro k
      rw [lookupNode_updateNode_isSome, lookupNode_updateNode_isSome]
    have hnotchild : ¬ childless (updateNode (updateNode t.nodes t.stackPath
        (stopUpd e ec)) pk (childUpd e ec)) pk := by
      intro hch
      have hSk : t.stackPath ∈ (updateNode (updateNode t.nodes t.stackPath
          (stopUpd e ec)) pk (childUpd e ec)).map Prod.fst := by
        rw [hkeys]; exact hSkeys
      rcases List.mem_map.mp hSk with ⟨q', hq', hq'fst⟩
      exact (hch q' hq') (by rw [hq'fst, ← hpkdrop])
    refine ⟨?_, ?_, ?_⟩
    · intro p' hp'
      obtain ⟨q1, hq1, hp'eq⟩ := mem_updateNode hp'
      obtain ⟨q, hq, hq1eq⟩ := mem_updateNode hq1
      by_cases hqS : q.1 = t.stackPath
      · rw [if_pos hqS] at hq1eq
        subst hq1eq
        have : ¬ ((q.1, stopUpd e ec q.2).1 = pk) := by
          simp only
          rw [hqS]
          exact fun hc => hpkne hc.symm
        rw [if_neg this] at hp'eq
        subst hp'eq
        exact ⟨goodEntry_of_same rfl rfl rfl rfl
            (fun k hk => by rw [hsome]; exact hk) (hg q hq).1,
          statsOk_stopUpd he hec hkeys (hg q hq).2⟩
      · rw [if_neg hqS] at hq1eq
        rw [hq1eq] at hp'eq
        by_cases hqpk : q.1 = pk
        · rw [if_pos hqpk] at hp'eq
          subst hp'eq
          obtain ⟨s1, s2, s3, s4, _⟩ := (hg q hq).2
          refine ⟨goodEntry_of_same rfl rfl rfl rfl
              (fun k hk => by rw [hsome]; exact hk) (hg q hq).1, ?_, ?_, ?_, ?_, ?_⟩
          · exact s1
          · exact s2
          · exact le_trans (sub_le_self _ he) s3
          · exact le_trans (sub_le_self _ hec) s4
          · intro hch
            rw [hqpk] at hch
            exact absurd hch hnotchild
        · rw [if_neg hqpk] at hp'eq
          subst hp'eq
          exact ⟨goodEntry_of_same rfl rfl rfl rfl
              (fun k hk => by rw [hsome]; exact hk) (hg _ hq).1,
            statsOk_unchanged hkeys (hg _ hq).2⟩
    · show ((updateNode (updateNode t.nodes t.stackPath (stopUpd e ec)) pk
        (childUpd e ec)).map Prod.fst).Nodup
      rw [hkeys]
      exact hnd
    · intro n hn' hlen
      show (lookupNode (updateNode (updateNode t.nodes t.stackPath (stopUpd e ec)) pk
        (childUpd e ec)) ((t.watches.dropLast.take n).map (fun w => w.name))).isSome
      rw [hsome]
      have hlen' : n ≤ t.watches.length - 1 := by
        simpa [List.length_dropLast] using hlen
      have htake : t.watches.dropLast.take n = t.watches.take n := by
        rw [List.dropLast_eq_take, List.take_take]
        congr 1
        omega
      rw [htake]
      exact hpre n hn' (by omega)

theorem inv_reach {t : Timer} (h : Reach t) : Inv t := by
  induction h with
  | init => exact inv_empty
  | push name _ ih => exact inv_push _ name ih
  | pop e ec _ he hec hok ih => exact inv_pop ih he hec hok

/-! ### Consequences of the invariant -/

theorem stackPath_present {t : Timer} (hI : Inv t) (hw : t.watches ≠ []) :
    (lookupNode t.nodes t.stackPath).isSome := by
  obtain ⟨_, _, hpre⟩ := hI
  have hlen : t.watches.length ≠ 0 := fun hc => hw (List.length_eq_zero.mp hc)
  have := hpre t.watches.length hlen (le_refl _)
  rwa [List.take_length] at this

theorem lookup_nil_none {t : Timer} (hI : Inv t) : lookupNode t.nodes [] = none := by
  obtain ⟨hg, _, _⟩ := hI
  cases hx : lookupNode t.nodes [] with
  | none => rfl
  | some m =>
    have := (hg _ (lookupNode_mem hx)).1.1
    simp at this

theorem parent_drop {ns : List (CallPath × Node)}
    (hg : ∀ p ∈ ns, goodEntry ns p ∧ statsOk ns p)
    {k : CallPath} {node : Node} {pk : CallPath}
    (hn : lookupNode ns k = some node) (hp : node.parent = some pk) :
    pk = k.dropLast ∧ pk ≠ k := by
  have hmem := lookupNode_mem hn
  obtain ⟨hkne, _, _, h4⟩ := (hg _ hmem).1
  obtain ⟨h1, _⟩ := h4 pk hp
  refine ⟨h1, ?_⟩
  intro hcc
  have hlen := List.length_dropLast k
  rw [← h1, hcc] at hlen
  have : 0 < k.length := List.length_pos.mpr hkne
  omega

/-- The result of `__getitem__` is the component-wise sum over every matching
record (a restatement of the destructive fold as closed-form sums). -/
theorem getitem_sum_spec (t : Timer) (x : String)
    (h : (t.nodes.filter (fun p => p.1.getLast? == some x)) ≠ []) :
    ∃ r, t.getitem x = .ok r ∧
      r.count = ((t.nodes.filter (fun p => p.1.getLast? == some x)).map
        (fun p => p.2.record.count)).sum ∧
      r.time = ((t.nodes.filter (fun p => p.1.getLast? == some x)).map
        (fun p => p.2.record.time)).sum ∧
      r.own_time = ((t.nodes.filter (fun p => p.1.getLast? == some x)).map
        (fun p => p.2.record.own_time)).sum ∧
      r.cpu_time = ((t.nodes.filter (fun p => p.1.getLast? == some x)).map
        (fun p => p.2.record.cpu_time)).sum ∧
      r.own_cpu_time = ((t.nodes.filter (fun p => p.1.getLast? == some x)).map
        (fun p => p.2.record.own_cpu_time)).sum := by
  cases hcase : (t.nodes.filter (fun p => p.1.getLast? == some x)).map
      (fun p => p.2.record) with
  | nil =>
    rw [List.map_eq_nil_iff] at hcase
    exact absurd hcase h
  | cons c rest =>
    have hget : t.getitem x = .ok (rest.foldl Record.merge c) := by
      unfold Timer.getitem
      rw [hcase]
    obtain ⟨_, f2, f3, f4, f5, f6⟩ := foldl_merge_fields rest c
    have hcomp : ∀ (F : Record → ℤ),
        ((t.nodes.filter (fun p => p.1.getLast? == some x)).map
          (fun p => F p.2.record)).sum = ((c :: rest).map F).sum := by
      intro F
      rw [← hcase, List.map_map]
      rfl
    have hcompN :
        ((t.nodes.filter (fun p => p.1.getLast? == some x)).map
          (fun p => p.2.record.count)).sum = ((c :: rest).map Record.count).sum := by
      rw [← hcase, List.map_map]
      rfl
    refine ⟨_, hget, ?_, ?_, ?_, ?_, ?_⟩
    · rw [f2, hcompN, List.map_cons, List.sum_cons]
    · rw [f3, hcomp Record.time, List.map_cons, List.sum_cons]
    · rw [f4, hcomp Record.own_time, List.map_cons, List.sum_cons]
    · rw [f5, hcomp Record.cpu_time, List.map_cons, List.sum_cons]
    · rw [f6, hcomp Record.own_cpu_time, List.map_cons, List.sum_cons]

/-- A successful `pop` adds exactly one to the summed invocation count and
exactly the elapsed deltas to the summed wall/cpu totals. -/
theorem pop_sums {t t' : Timer} {e ec : ℤ} (hI : Inv t) (h : t.pop e ec = .ok t') :
    sumCount t' = sumCount t + 1 ∧ sumTime t' = sumTime t + e ∧
    sumCpuTime t' = sumCpuTime t + ec := by
  obtain ⟨hg, hnd, _⟩ := hI
  obtain ⟨w0, node, hw, hn, ht'⟩ := pop_ok_inv h
  subst ht'
  have hcnt := sum_map_updateNode (fun p => p.2.record.count) (stopUpd e ec) hnd hn
  have htm := sum_map_updateNode (fun p => p.2.record.time) (stopUpd e ec) hnd hn
  have hcp := sum_map_updateNode (fun p => p.2.record.cpu_time) (stopUpd e ec) hnd hn
  simp only [stopUpd] at hcnt htm hcp
  cases hp : node.parent with
  | none =>
    refine ⟨?_, ?_, ?_⟩
    · show ((updateNode t.nodes t.stackPath (stopUpd e ec)).map
        (fun p => p.2.record.count)).sum = sumCount t + 1
      unfold sumCount
      omega
    · show ((updateNode t.nodes t.stackPath (stopUpd e ec)).map
        (fun p => p.2.record.time)).sum = sumTime t + e
      unfold sumTime
      omega
    · show ((updateNode t.nodes t.stackPath (stopUpd e ec)).map
        (fun p => p.2.record.cpu_time)).sum = sumCpuTime t + ec
      unfold sumCpuTime
      omega
  | some pk =>
    have hcongrC := map_updateNode_congr (fun p => p.2.record.count)
      (updateNode t.nodes t.stackPath (stopUpd e ec)) pk (childUpd e ec) (fun m => rfl)
    have hcongrT := map_updateNode_congr (fun p => p.2.record.time)
      (updateNode t.nodes t.stackPath (stopUpd e ec)) pk (childUpd e ec) (fun m => rfl)
    have hcongrP := map_updateNode_congr (fun p => p.2.record.cpu_time)
      (updateNode t.nodes t.stackPath (stopUpd e ec)) pk (childUpd e ec) (fun m => rfl)
    refine ⟨?_, ?_, ?_⟩
    · show ((updateNode (updateNode t.nodes t.stackPath (stopUpd e ec)) pk
        (childUpd e ec)).map (fun p => p.2.record.count)).sum = sumCount t + 1
      rw [hcongrC]
      unfold sumCount
      omega
    · show ((updateNode (updateNode t.nodes t.stackPath (stopUpd e ec)) pk
        (childUpd e ec)).map (fun p => p.2.record.time)).sum = sumTime t + e
      rw [hcongrT]
      unfold sumTime
      omega
    · show ((updateNode (updateNode t.nodes t.stackPath (stopUpd e ec)) pk
        (childUpd e ec)).map (fun p => p.2.record.cpu_time)).sum = sumCpuTime t + ec
      rw [hcongrP]
      unfold sumCpuTime
      omega

/-- A successful `pop` is available on every invariant-satisfying state with a
non-empty stack, and `frozen` therefore closes all open regions, folding each
supplied delta in. -/
theorem frozen_spec (ds : List (ℤ × ℤ)) :
    ∀ t : Timer, Inv t → ds.length = t.watches.length →
      (∀ d ∈ ds, 0 ≤ d.1 ∧ 0 ≤ d.2) →
      (t.frozen ds).watches = [] ∧
      sumCount (t.frozen ds) = sumCount t + ds.length ∧
      sumTime (t.frozen ds) = sumTime t + (ds.map Prod.fst).sum ∧
      sumCpuTime (t.frozen ds) = sumCpuTime t + (ds.map Prod.snd).sum := by
  induction ds with
  | nil =>
    intro t _ hlen _
    refine ⟨?_, by simp [Timer.frozen], by simp [Timer.frozen], by simp [Timer.frozen]⟩
    show t.watches = []
    exact List.length_eq_zero.mp hlen.symm
  | cons d ds ih =>
    intro t hI hlen hnn
    have hw : t.watches ≠ [] := by
      intro hc
      rw [hc] at hlen
      simp at hlen
    rcases Option.isSome_iff_exists.mp (stackPath_present hI hw) with ⟨node, hn⟩
    rcases Option.isSome_iff_exists.mp (List.getLast?_isSome.mpr hw) with ⟨w0, hw0⟩
    obtain ⟨t1, hchar⟩ : ∃ t1, t.pop d.1 d.2 = .ok t1 :=
      ⟨_, pop_ok_char t d.1 d.2 hw0 hn⟩
    have hfr : t.frozen (d :: ds) = t1.frozen ds := by
      show (match t.pop d.1 d.2 with
        | .ok t' => t'.frozen ds
        | .error _ => t) = t1.frozen ds
      rw [hchar]
    have hI' := inv_pop hI (hnn d (List.mem_cons_self d ds)).1
      (hnn d (List.mem_cons_self d ds)).2 hchar
    obtain ⟨w1, node1, h1x, h2x, ht1⟩ := pop_ok_inv hchar
    have hwl : t1.watches = t.watches.dropLast := by rw [ht1]
    have hlen' : ds.length = t1.watches.length := by
      rw [hwl, List.length_dropLast]
      rw [List.length_cons] at hlen
      omega
    obtain ⟨g1, g2, g3, g4⟩ := ih _ hI' hlen'
      (fun x hx => hnn x (List.mem_cons_of_mem _ hx))
    obtain ⟨p1, p2, p3⟩ := pop_sums hI hchar
    rw [hfr]
    refine ⟨g1, ?_, ?_, ?_⟩
    · rw [g2, p1, List.length_cons]
      omega
    · rw [g3, p2, List.map_cons, List.sum_cons]
      omega
    · rw [g4, p3, List.map_cons, List.sum_cons]
      omega

/-! ### The claims -/

/-- C1 (counterexample): the claim that leaf-name lookup signals an
`AmbiguousName` condition when ≥2 distinct paths share the leaf name is false
for this code. In `exAmbig` exactly two stored paths (`["a","b"]` and
`["b"]`) end in `b`, yet `Timer.__getitem__ "b"` returns a merged record
(`Except.ok`) rather than any error; the implementation's only lookup error
is the not-found `KeyError`, and its own test suite asserts the silent-merge
behavior. -/
theorem C1_cex :
    (exAmbig.nodes.filter (fun p => p.1.getLast? == some "b")).length = 2 ∧
    exAmbig.getitem "b" = .ok ⟨"b", 2, 6, 6, 6, 6⟩ := by
  constructor
  · decide
  · decide

/-- C1 (amended): when at least two distinct stored call paths end in the
looked-up leaf name, `Timer.__getitem__` does not signal an ambiguity: it
returns one record whose statistics are the component-wise sums over every
matching record — the silent-merge (rename-on-read) semantics. -/
theorem C1_getitem_merges (t : Timer) (item : String)
    (h : 2 ≤ (t.nodes.filter (fun p => p.1.getLast? == some item)).length) :
    ∃ r, t.getitem item = .ok r ∧
      r.count = ((t.nodes.filter (fun p => p.1.getLast? == some item)).map
        (fun p => p.2.record.count)).sum ∧
      r.time = ((t.nodes.filter (fun p => p.1.getLast? == some item)).map
        (fun p => p.2.record.time)).sum ∧
      r.own_time = ((t.nodes.filter (fun p => p.1.getLast? == some item)).map
        (fun p => p.2.record.own_time)).sum ∧
      r.cpu_time = ((t.nodes.filter (fun p => p.1.getLast? == some item)).map
        (fun p => p.2.record.cpu_time)).sum ∧
      r.own_cpu_time = ((t.nodes.filter (fun p => p.1.getLast? == some item)).map
        (fun p => p.2.record.own_cpu_time)).sum := by
  refine getitem_sum_spec t item ?_
  intro hc
  rw [hc] at h
  simp at h

/-- C1 (amended, witness): at the concrete state `exAmbig` the merged lookup
succeeds and its count is the sum 1 + 1 of the two matching records. -/
theorem C1_witness : ∃ r, exAmbig.getitem "b" = .ok r ∧ r.count = 2 := by
  obtain ⟨r, hr, hc, -, -, -, -⟩ := C1_getitem_merges exAmbig "b" (by decide)
  refine ⟨r, hr, ?_⟩
  rw [hc]
  decide

/-- C2: on a reachable state with a non-empty active stack, `pop` succeeds;
it stops the top watch (whose elapsed deltas are `e`, `ec`), and at the
record keyed by the current full path (the stack including the just-stopped
watch) increments `count` by exactly one and adds the deltas to both total
and own accumulators for both clocks; when that record has a parent it
subtracts the same deltas from the parent record's own accumulators; every
other entry of the map is unchanged, and the watch is removed from the
stack. -/
theorem C2_pop_spec (t : Timer) (hR : Reach t) (hw : t.watches ≠ []) (e ec : ℤ) :
    ∃ t' node, t.pop e ec = .ok t' ∧
      lookupNode t.nodes t.stackPath = some node ∧
      t'.watches = t.watches.dropLast ∧
      lookupNode t'.nodes t.stackPath = some
        { node with record :=
          { node.record with
              count := node.record.count + 1
              time := node.record.time + e
              own_time := node.record.own_time + e
              cpu_time := node.record.cpu_time + ec
              own_cpu_time := node.record.own_cpu_time + ec } } ∧
      (∀ pk, node.parent = some pk →
        lookupNode t'.nodes pk = (lookupNode t.nodes pk).map (fun m =>
          { m with record :=
            { m.record with
                own_time := m.record.own_time - e
                own_cpu_time := m.record.own_cpu_time - ec } })) ∧
      (∀ k, k ≠ t.stackPath → node.parent ≠ some k →
        lookupNode t'.nodes k = lookupNode t.nodes k) := by
  have hI := inv_reach hR
  rcases Option.isSome_iff_exists.mp (stackPath_present hI hw) with ⟨node, hn⟩
  rcases Option.isSome_iff_exists.mp (List.getLast?_isSome.mpr hw) with ⟨w0, hw0⟩
  refine ⟨_, node, pop_ok_char t e ec hw0 hn, hn, rfl, ?_, ?_, ?_⟩
  · cases hp : node.parent with
    | none =>
      show lookupNode (updateNode t.nodes t.stackPath (stopUpd e ec)) t.stackPath = _
      rw [lookupNode_updateNode_self, hn]
      simp [stopUpd, hp]
    | some pk =>
      obtain ⟨-, hpkne⟩ := parent_drop hI.1 hn hp
      show lookupNode (updateNode (updateNode t.nodes t.stackPath (stopUpd e ec)) pk
        (childUpd e ec)) t.stackPath = _
      rw [lookupNode_updateNode_ne _ _ (fun hc => hpkne hc.symm)]
      rw [lookupNode_updateNode_self, hn]
      simp [stopUpd, hp]
  · intro pk hp
    obtain ⟨-, hpkne⟩ := parent_drop hI.1 hn hp
    have : (match node.parent with
        | some pk => updateNode (updateNode t.nodes t.stackPath (stopUpd e ec)) pk
            (childUpd e ec)
        | none => updateNode t.nodes t.stackPath (stopUpd e ec))
        = updateNode (updateNode t.nodes t.stackPath (stopUpd e ec)) pk
            (childUpd e ec) := by
      rw [hp]
    show lookupNode (match node.parent with
      | some pk => updateNode (updateNode t.nodes t.stackPath (stopUpd e ec)) pk
          (childUpd e ec)
      | none => updateNode t.nodes t.stackPath (stopUpd e ec)) pk = _
    rw [this, lookupNode_updateNode_self, lookupNode_updateNode_ne _ _ hpkne]
    rfl
  · intro k hk1 hk2
    cases hp : node.parent with
    | none =>
      show lookupNode (updateNode t.nodes t.stackPath (stopUpd e ec)) k = _
      rw [lookupNode_updateNode_ne _ _ hk1]
    | some pk =>
      have hkpk : k ≠ pk := fun hc => hk2 (by rw [hc]; exact hp)
      show lookupNode (updateNode (updateNode t.nodes t.stackPath (stopUpd e ec)) pk
        (childUpd e ec)) k = _
      rw [lookupNode_updateNode_ne _ _ hkpk, lookupNode_updateNode_ne _ _ hk1]

/-- C2 (witness): on the concrete reachable state `push a; push b`, `pop`
with deltas (1, 2) succeeds and finds the record at the full path. -/
theorem C2_witness :
    ∃ t' node, ((Timer.empty.push "a").push "b").pop 1 2 = .ok t' ∧
      lookupNode ((Timer.empty.push "a").push "b").nodes
        ((Timer.empty.push "a").push "b").stackPath = some node ∧
      lookupNode t'.nodes ((Timer.empty.push "a").push "b").stackPath = some
        { node with record :=
          { node.record with
              count := node.record.count + 1
              time := node.record.time + 1
              own_time := node.record.own_time + 1
              cpu_time := node.record.cpu_time + 2
              own_cpu_time := node.record.own_cpu_time + 2 } } := by
  obtain ⟨t', node, h1, h2, -, h4, -, -⟩ :=
    C2_pop_spec ((Timer.empty.push "a").push "b")
      (Reach.push "b" (Reach.push "a" Reach.init)) (by decide) 1 2
  exact ⟨t', node, h1, h2, h4⟩

/-- C3: `pop` on an empty active stack signals a stack-underflow condition:
the result is the `stackUnderflow` error, surfaced to the caller; in the
source the guarding `assert` raises before anything is mutated, which the
error result of this pure embedding models — no updated state is produced,
so records and stack are unchanged. -/
theorem C3_pop_empty_underflow (t : Timer) (h : t.watches = []) (e ec : ℤ) :
    t.pop e ec = .error .stackUnderflow := by
  simp [Timer.pop, h]

/-- C3 (witness): popping the empty timer underflows. -/
theorem C3_witness : Timer.empty.pop 0 0 = .error .stackUnderflow :=
  C3_pop_empty_underflow Timer.empty rfl 0 0

/-- C4 (counterexample): the claimed record invariant is false as stated. In
the reachable state `exOpen` (`push a; push b; pop(1,1)`, non-negative
deltas), the created record at path `["a"]` has `count = 0` (violating
`count ≥ 1`) and `own_time = -1` (violating `own_wall ≥ 0`). -/
theorem C4_cex :
    Reach exOpen ∧
    (lookupNode exOpen.nodes ["a"]).map
      (fun n => (n.record.count, n.record.own_time)) = some (0, -1) := by
  constructor
  · exact Reach.pop 1 1 (Reach.push "b" (Reach.push "a" Reach.init))
      (by norm_num) (by norm_num) rfl
  · decide

/-- C4 (amended): on every reachable state (any push/pop sequence with
non-negative deltas), every stored record satisfies `0 ≤ total` and
`own ≤ total` on both clocks, and a record with no recorded children has
`own = total` (hence `own ≥ 0`). The original claim's `count ≥ 1` and
unconditional `own ≥ 0` must be dropped: a record has `count = 0` between
its creating push and its first pop, and a parent's own accumulator is
negative while a child has stopped but the parent is still open. -/
theorem C4_record_invariant (t : Timer) (hR : Reach t) :
    ∀ p ∈ t.nodes,
      0 ≤ p.2.record.time ∧ 0 ≤ p.2.record.cpu_time ∧
      p.2.record.own_time ≤ p.2.record.time ∧
      p.2.record.own_cpu_time ≤ p.2.record.cpu_time ∧
      ((∀ q ∈ t.nodes, q.1.dropLast ≠ p.1) →
        p.2.record.own_time = p.2.record.time ∧ 0 ≤ p.2.record.own_time ∧
        p.2.record.own_cpu_time = p.2.record.cpu_time ∧
        0 ≤ p.2.record.own_cpu_time) := by
  intro p hp
  obtain ⟨s1, s2, s3, s4, s5⟩ := ((inv_reach hR).1 p hp).2
  refine ⟨s1, s2, s3, s4, ?_⟩
  intro hch
  obtain ⟨e1, e2⟩ := s5 hch
  exact ⟨e1, by rw [e1]; exact s1, e2, by rw [e2]; exact s2⟩

/-- C4 (amended, witness): the leaf record at `["a","b"]` in `exOpen` has
non-negative total and, being childless, own time equal to total time. -/
theorem C4_witness :
    (0 : ℤ) ≤ (⟨"b", 1, 1, 1, 1, 1⟩ : Record).time ∧
    (⟨"b", 1, 1, 1, 1, 1⟩ : Record).own_time = (⟨"b", 1, 1, 1, 1, 1⟩ : Record).time := by
  have h := C4_record_invariant exOpen
    (Reach.pop 1 1 (Reach.push "b" (Reach.push "a" Reach.init))
      (by norm_num) (by norm_num) rfl)
    (["a", "b"], ⟨["a", "b"], ⟨"b", 1, 1, 1, 1, 1⟩, some ["a"]⟩) (by decide)
  exact ⟨h.1, (h.2.2.2.2 (by decide)).1⟩

/-- C5: the flat projection `Timer.records` has exactly one entry per
distinct leaf name occurring among the stored keys (the listed names are
deduplicated in first-occurrence order and exhaust the occurring leaf
names); for each such name the lookup succeeds and yields a record whose
five statistics are the component-wise sums over every stored record sharing
that leaf name, and that record is an element of `records`. The projection
is a pure function of the tree (no mutation), and the produced `Record`
values carry no parent link — the `Record` type has no such field. -/
theorem C5_records_flatten (t : Timer) :
    (firstOcc (t.nodes.filterMap (fun p => p.1.getLast?))).Nodup ∧
    (∀ x, x ∈ firstOcc (t.nodes.filterMap (fun p => p.1.getLast?)) ↔
      ∃ p ∈ t.nodes, p.1.getLast? = some x) ∧
    t.records.length = (firstOcc (t.nodes.filterMap (fun p => p.1.getLast?))).length ∧
    ∀ x ∈ firstOcc (t.nodes.filterMap (fun p => p.1.getLast?)),
      ∃ r, t.getitem x = .ok r ∧ r ∈ t.records ∧
        r.count = ((t.nodes.filter (fun p => p.1.getLast? == some x)).map
          (fun p => p.2.record.count)).sum ∧
        r.time = ((t.nodes.filter (fun p => p.1.getLast? == some x)).map
          (fun p => p.2.record.time)).sum ∧
        r.own_time = ((t.nodes.filter (fun p => p.1.getLast? == some x)).map
          (fun p => p.2.record.own_time)).sum ∧
        r.cpu_time = ((t.nodes.filter (fun p => p.1.getLast? == some x)).map
          (fun p => p.2.record.cpu_time)).sum ∧
        r.own_cpu_time = ((t.nodes.filter (fun p => p.1.getLast? == some x)).map
          (fun p => p.2.record.own_cpu_time)).sum := by
  have hmemiff : ∀ x, x ∈ firstOcc (t.nodes.filterMap (fun p => p.1.getLast?)) ↔
      ∃ p ∈ t.nodes, p.1.getLast? = some x := by
    intro x
    rw [mem_firstOcc, List.mem_filterMap]
  have hne : ∀ x ∈ firstOcc (t.nodes.filterMap (fun p => p.1.getLast?)),
      (t.nodes.filter (fun p => p.1.getLast? == some x)) ≠ [] := by
    intro x hx hc
    obtain ⟨p, hp, hpx⟩ := (hmemiff x).mp hx
    have : p ∈ t.nodes.filter (fun p => p.1.getLast? == some x) :=
      List.mem_filter.mpr ⟨hp, by simp [hpx]⟩
    rw [hc] at this
    cases this
  have hok : ∀ x ∈ firstOcc (t.nodes.filterMap (fun p => p.1.getLast?)),
      ((t.getitem x).toOption).isSome := by
    intro x hx
    obtain ⟨r, hr, -, -, -, -, -⟩ := getitem_sum_spec t x (hne x hx)
    rw [hr]
    rfl
  refine ⟨nodup_firstOcc _, hmemiff, ?_, ?_⟩
  · exact length_filterMap_of_isSome _ _ hok
  · intro x hx
    obtain ⟨r, hr, h1, h2, h3, h4, h5⟩ := getitem_sum_spec t x (hne x hx)
    refine ⟨r, hr, ?_, h1, h2, h3, h4, h5⟩
    exact List.mem_filterMap.mpr ⟨x, hx, by rw [hr]; rfl⟩

/-- C5 (witness): in `exAmbig` the leaf name `b` occurs on two paths; the
flat projection contains the merged record with summed statistics. -/
theorem C5_witness :
    ∃ r, exAmbig.getitem "b" = .ok r ∧ r ∈ exAmbig.records ∧ r.time = 6 := by
  obtain ⟨r, hr, hmem, -, ht, -, -, -⟩ :=
    (C5_records_flatten exAmbig).2.2.2 "b" (by decide)
  refine ⟨r, hr, hmem, ?_⟩
  rw [ht]
  decide

/-- C6: `Record.merge` on the statistics tuple `(count, time, own_time,
cpu_time, own_cpu_time)` sums component-wise, is commutative and associative
(associativity even on whole records, names included), and the all-zero
record is an identity: a two-sided identity on statistics and a right
identity on the whole record. -/
theorem C6_merge_monoid (a b c : Record) (z : String) :
    statsOf (a.merge b)
      = (a.count + b.count, a.time + b.time, a.own_time + b.own_time,
         a.cpu_time + b.cpu_time, a.own_cpu_time + b.own_cpu_time) ∧
    statsOf (a.merge b) = statsOf (b.merge a) ∧
    (a.merge b).merge c = a.merge (b.merge c) ∧
    a.merge { name := z } = a ∧
    statsOf (Record.merge { name := z } a) = statsOf a := by
  refine ⟨rfl, ?_, ?_, ?_, ?_⟩
  · simp [statsOf, Record.merge, add_comm]
  · simp [Record.merge, add_assoc]
  · simp [Record.merge]
  · simp [statsOf, Record.merge]

/-- C7: on any reachable state, `push name` appends exactly one fresh
stopwatch (it never fails), keys the region by the current stack path
extended with `name`, and touches the map only as follows: if a node already
exists at that exact path, the map is unchanged; otherwise exactly one node
is appended there, its record fresh and named `name`, its parent
back-reference the node at the prior stack's path — `none` exactly when the
stack was empty. -/
theorem C7_push_spec (t : Timer) (hR : Reach t) (name : String) :
    (t.push name).watches = t.watches ++ [⟨name, 0, 0⟩] ∧
    ((lookupNode t.nodes (t.stackPath ++ [name])).isSome →
      (t.push name).nodes = t.nodes) ∧
    (lookupNode t.nodes (t.stackPath ++ [name]) = none →
      (t.push name).nodes = t.nodes ++ [(t.stackPath ++ [name],
        ⟨t.stackPath ++ [name], { name := name },
         if t.watches = [] then none else some t.stackPath⟩)]) := by
  have hI := inv_reach hR
  refine ⟨push_watches t name, ?_, ?_⟩
  · intro hc
    rw [push_nodes, if_pos hc]
  · intro hc
    rw [push_nodes, if_neg (by rw [hc]; simp)]
    have hpar : (lookupNode t.nodes t.stackPath).map (fun _ => t.stackPath)
        = if t.watches = [] then none else some t.stackPath := by
      by_cases hw : t.watches = []
      · rw [if_pos hw]
        have hnilpath : t.stackPath = [] := by
          rw [Timer.stackPath, hw]
          rfl
        rw [hnilpath, lookup_nil_none hI]
        rfl
      · rw [if_neg hw]
        rcases Option.isSome_iff_exists.mp (stackPath_present hI hw) with ⟨m, hm⟩
        rw [hm]
        rfl
    rw [hpar]

/-- C7 (witness): pushing `b` on the state `push a` creates exactly the node
keyed `["a","b"]` with a fresh record named `b` and parent `["a"]`. -/
theorem C7_witness :
    ((Timer.empty.push "a").push "b").nodes
      = (Timer.empty.push "a").nodes ++
        [(["a", "b"], ⟨["a", "b"], { name := "b" }, some ["a"]⟩)] :=
  (C7_push_spec (Timer.empty.push "a") (Reach.push "a" Reach.init) "b").2.2 rfl

/-- C8: `copy` is a snapshot of the whole tree (records and active stack);
in this pure-value embedding the snapshot is the value itself, so later
`push`/`pop` on the original build new values and cannot change any
statistic of the copy. `frozen` (modelled from the spec, like `copy`) on a
copy with `N` still-open regions force-pops all of them, top to bottom: the
result has an empty active stack, its summed invocation count grows by
exactly `N`, and its summed wall/cpu totals grow by exactly the supplied
partial elapsed deltas. -/
theorem C8_copy_frozen (t : Timer) (hR : Reach t) (ds : List (ℤ × ℤ))
    (hlen : ds.length = t.watches.length)
    (hnn : ∀ d ∈ ds, 0 ≤ d.1 ∧ 0 ≤ d.2) :
    t.copy = t ∧
    (t.copy.frozen ds).watches = [] ∧
    sumCount (t.copy.frozen ds) = sumCount t + ds.length ∧
    sumTime (t.copy.frozen ds) = sumTime t + (ds.map Prod.fst).sum ∧
    sumCpuTime (t.copy.frozen ds) = sumCpuTime t + (ds.map Prod.snd).sum := by
  obtain ⟨g1, g2, g3, g4⟩ := frozen_spec ds t (inv_reach hR) hlen hnn
  exact ⟨rfl, g1, g2, g3, g4⟩

/-- C8 (witness): freezing a copy of the one-open-region state `push a` with
partial deltas (2, 3) closes the region and folds the deltas in. -/
theorem C8_witness :
    (Timer.empty.push "a").copy = Timer.empty.push "a" ∧
    ((Timer.empty.push "a").copy.frozen [(2, 3)]).watches = [] ∧
    sumCount ((Timer.empty.push "a").copy.frozen [(2, 3)])
      = sumCount (Timer.empty.push "a") + 1 ∧
    sumTime ((Timer.empty.push "a").copy.frozen [(2, 3)])
      = sumTime (Timer.empty.push "a") + 2 ∧
    sumCpuTime ((Timer.empty.push "a").copy.frozen [(2, 3)])
      = sumCpuTime (Timer.empty.push "a") + 3 :=
  C8_copy_frozen (Timer.empty.push "a") (Reach.push "a" Reach.init)
    [(2, 3)] rfl (by decide)

/-- C9: `__getitem__` never mutates the tree. In the state-passing
translation `getitemRun` (statement-by-statement from the source, where the
only mutated object is the local `copy.copy` of the first candidate's
record), the state coming out of the call is the state that went in, every
stored entry reads back unchanged, and the returned value agrees with the
pure merge-fold `getitem`. -/
theorem C9_getitem_pure (t : Timer) (item : String) :
    (t.getitemRun item).1 = t ∧
    (∀ k, lookupNode (t.getitemRun item).1.nodes k = lookupNode t.nodes k) ∧
    (t.getitemRun item).2 = t.getitem item := by
  have h1 : (t.getitemRun item).1 = t := by
    unfold Timer.getitemRun
    cases hx : (t.nodes.filter (fun p => p.1.getLast? == some item)).map
        (fun p => p.2) <;> rfl
  refine ⟨h1, fun k => by rw [h1], ?_⟩
  have hmm : (t.nodes.filter (fun p => p.1.getLast? == some item)).map
      (fun p => p.2.record)
      = ((t.nodes.filter (fun p => p.1.getLast? == some item)).map
        (fun p => p.2)).map (fun n => n.record) := by
    rw [List.map_map]
    rfl
  unfold Timer.getitemRun Timer.getitem
  rw [hmm]
  cases hx : (t.nodes.filter (fun p => p.1.getLast? == some item)).map
      (fun p => p.2) with
  | nil => rfl
  | cons c rest =>
    simp only [List.map_cons]
    rw [List.foldl_map]

/-- C10: structural invariant of the node map, preserved by every push and
pop: every stored key is a non-empty path, the record's `name` is the last
element of its key, and a node carrying a parent back-reference points
exactly at the key obtained by dropping the last element of its own key,
which is present in the map. (The Python `parent` is an object reference;
since each map key is bound exactly once and never re-bound, that reference
is observationally the entry at this key, which is how the embedding
represents it.) -/
theorem C10_structure (t : Timer) (hR : Reach t) :
    ∀ p ∈ t.nodes, p.1 ≠ [] ∧ p.2.record.name = p.1.getLastD "" ∧
      ∀ pk, p.2.parent = some pk →
        pk = p.1.dropLast ∧ (lookupNode t.nodes pk).isSome := by
  intro p hp
  obtain ⟨h1, -, h3, h4⟩ := ((inv_reach hR).1 p hp).1
  exact ⟨h1, h3, h4⟩

/-- C10 (witness): in the state `push a; push b` the node keyed `["a","b"]`
has its parent reference at `["a"]`, the key minus its last element, and that
key is present. -/
theorem C10_witness :
    ["a"] = (["a", "b"] : CallPath).dropLast ∧
    (lookupNode ((Timer.empty.push "a").push "b").nodes ["a"]).isSome := by
  have h := C10_structure ((Timer.empty.push "a").push "b")
    (Reach.push "b" (Reach.push "a" Reach.init))
    (["a", "b"], ⟨["a", "b"], { name := "b" }, some ["a"]⟩) (by decide)
  exact h.2.2 ["a"] rfl

end TTimer
